import Mathlib

/-! # gitfs: the `mount` command (cmd/mount.go)

A shallow embedding of `gitfsCmd.getLogLevel`, `gitfsCmd.Run` and the flag
table of `init`, followed by the properties of the mount supervisor.

Conventions of the embedding.

* Calls that leave the package (`fs.NewTreeFSRoot`, `os.Mkdir`,
  `unionfs.NewUnionFs`, `nodefs.MountRoot`, ...) are answered by an
  environment; `Run` returns the list of actions it performs, in program
  order.
* `strings.ToLower` and `log.ParseLevel` are embedded as their libraries
  define them, over the case table of the Unicode library, which is a
  parameter.
* `float64` is embedded as a sign, an integer significand and a binary
  exponent, with round-to-nearest-even to 53 bits after every operation.
  Infinities, NaN and the limits of the exponent are not part of the model.
* The goroutines started by `Run` are embedded as a transition system over a
  process state with a nanosecond clock.
-/

namespace Gitfs

/-! ## Logging levels -/

/-- Levels of the logging library, in its order. -/
inductive Level
  | PanicLevel | FatalLevel | ErrorLevel | WarnLevel | InfoLevel | DebugLevel | TraceLevel
  deriving DecidableEq, Repr

/-- The error `log.ParseLevel` answers for a text that is no level name,
`fmt.Errorf("not a valid logrus Level: %q", lvl)`, kept as the text it quotes. -/
structure LevelError where
  lvl : String
  deriving DecidableEq, Repr

/-- The two library functions `getLogLevel` calls: `strings.ToLower` and
`log.ParseLevel` (which answers a level or an error). -/
structure LogLib where
  toLower : String → String
  parseLevel : String → Except LevelError Level

/-- The function `unicode.ToLower` on a rune: up to `MaxASCII` the letters
`A` to `Z` are moved to `a` to `z` and every other rune is left alone; above
`MaxASCII` the answer is read from the case table of the Unicode library,
here `tbl`. -/
def unicodeToLower (tbl : Char → Char) (r : Char) : Char :=
  if r.toNat ≤ 0x7F then
    if 65 ≤ r.toNat ∧ r.toNat ≤ 90 then Char.ofNat (r.toNat + 32) else r
  else tbl r

/-- The function `strings.ToLower`: every rune of the text is mapped by
`unicode.ToLower`. (Its separate path for a text of ASCII bytes gives the
same result.) A Go string that is not valid UTF-8 is not a text of the
model. -/
def ToLower (tbl : Char → Char) (s : String) : String :=
  String.mk (s.data.map (unicodeToLower tbl))

/-- The `switch` of `log.ParseLevel` on the lower-cased text. -/
def levelOfName (l : String) : Option Level :=
  if l = "panic" then some .PanicLevel
  else if l = "fatal" then some .FatalLevel
  else if l = "error" then some .ErrorLevel
  else if l = "warn" ∨ l = "warning" then some .WarnLevel
  else if l = "info" then some .InfoLevel
  else if l = "debug" then some .DebugLevel
  else if l = "trace" then some .TraceLevel
  else none

/-- The function `log.ParseLevel` of logrus: it lower-cases its argument with
`strings.ToLower` and compares the result with the level names. -/
def ParseLevel (tbl : Char → Char) (lvl : String) : Except LevelError Level :=
  match levelOfName (ToLower tbl lvl) with
  | some l => .ok l
  | none => .error ⟨lvl⟩

/-- The two library functions over the case table `tbl`. -/
def goLogLib (tbl : Char → Char) : LogLib := ⟨ToLower tbl, ParseLevel tbl⟩

/-- A sample of the case table, for the closed examples: U+0130 (capital I
with dot above) goes to `i`, U+212A (Kelvin sign) to `k`, every other rune
stays. The properties below are proved for every table. -/
def sampleTable (r : Char) : Char :=
  if r.toNat = 0x130 then 'i' else if r.toNat = 0x212A then 'k' else r

/-- The library over the sample table. -/
def stdLogLib : LogLib := goLogLib sampleTable

/-! ## float64 and time.Duration -/

/-- A finite float64: the value `(-1)^neg * man * 2^exp`. -/
structure F64 where
  neg : Bool
  man : Nat
  exp : Int
  deriving DecidableEq, Repr

/-- The quotient `m / 2^k` rounded to nearest, ties to even. -/
def roundHalfEven (m k : Nat) : Nat :=
  let q := m / 2 ^ k
  let r := m % 2 ^ k
  if 2 * r < 2 ^ k then q
  else if 2 ^ k < 2 * r then q + 1
  else if q % 2 = 0 then q else q + 1

/-- Bit length by repeated halving, at most `fuel` times. -/
def bitLenAux : Nat → Nat → Nat
  | 0, _ => 0
  | fuel + 1, m => if m = 0 then 0 else bitLenAux fuel (m / 2) + 1

/-- Number of binary digits of `m` (0 for 0). -/
def bitLen (m : Nat) : Nat := bitLenAux m m

/-- Number of low bits a significand must lose to fit 53 bits. -/
def excessBits (m : Nat) : Nat := bitLen m - 53

/-- Rounding of the exact value `(-1)^neg * m * 2^e` to float64. -/
def F64.round (neg : Bool) (m : Nat) (e : Int) : F64 :=
  ⟨neg, roundHalfEven m (excessBits m), e + (excessBits m : Nat)⟩

/-- The float64 nearest to a whole number (what parsing its decimal text, or
converting an integer constant, yields). -/
def F64.ofNat (n : Nat) : F64 := F64.round false n 0

/-- Product of two float64 values, correctly rounded. -/
def F64.mul (a b : F64) : F64 :=
  F64.round (a.neg != b.neg) (a.man * b.man) (a.exp + b.exp)

/-- Conversion of a float64 to int64: the fraction is discarded (truncation
toward zero). A value outside the int64 range has no defined result. -/
def F64.toInt64 (x : F64) : Option Int :=
  let mag : Nat :=
    if 0 ≤ x.exp then x.man * 2 ^ x.exp.toNat else x.man / 2 ^ (-x.exp).toNat
  let v : Int := if x.neg then -(mag : Int) else (mag : Int)
  if -(2 ^ 63 : Int) ≤ v ∧ v < 2 ^ 63 then some v else none

/-- Nanoseconds in `time.Second`. -/
def Second : Nat := 1000000000

/-- The expression `time.Duration(ttl * float64(time.Second))`, in nanoseconds. -/
def toDuration (ttl : F64) : Option Int :=
  (F64.mul ttl (F64.ofNat Second)).toInt64

/-! ## Options and flags -/

/-- The option block `gitfsCmd.o`. -/
structure Options where
  debug : Bool
  logLevel : String
  gitDir : String
  lazy : Bool
  disk : Bool
  tempDir : String
  portable : Bool
  entryTtl : F64
  negativeTtl : F64
  delcacheTtl : F64
  branchcacheTtl : F64
  deletionDirname : String
  deriving DecidableEq, Repr

/-- The defaults registered by `init`. -/
def defaultOptions : Options where
  debug := false
  logLevel := "info"
  gitDir := ""
  lazy := true
  disk := false
  tempDir := "gitfs"
  portable := false
  entryTtl := F64.ofNat 1
  negativeTtl := F64.ofNat 1
  delcacheTtl := F64.ofNat 5
  branchcacheTtl := F64.ofNat 5
  deletionDirname := "GOUNIONFS_DELETIONS"

/-- One flag given on the command line, with its parsed value, under the
names registered by `init`: `--debug`, `--log-level`, `--git-dir`, `--lazy`,
`--disk`, `--tempdir`, `--portable`, `--entry-ttl`, `--negative-ttl`,
`--delcache-cache-ttl`, `--branchcache-ttl`, `--deletion-dirname`. -/
inductive Flag
  | debug (b : Bool)
  | logLevel (s : String)
  | gitDir (s : String)
  | lazy (b : Bool)
  | disk (b : Bool)
  | tempdir (s : String)
  | portable (b : Bool)
  | entryTtl (x : F64)
  | negativeTtl (x : F64)
  | delcacheCacheTtl (x : F64)
  | branchcacheTtl (x : F64)
  | deletionDirname (s : String)
  deriving DecidableEq, Repr

/-- Storing a flag's value in the variable `init` bound it to. -/
def Flag.set (o : Options) : Flag → Options
  | .debug b => { o with debug := b }
  | .logLevel s => { o with logLevel := s }
  | .gitDir s => { o with gitDir := s }
  | .lazy b => { o with lazy := b }
  | .disk b => { o with disk := b }
  | .tempdir s => { o with tempDir := s }
  | .portable b => { o with portable := b }
  | .entryTtl x => { o with entryTtl := x }
  | .negativeTtl x => { o with negativeTtl := x }
  | .delcacheCacheTtl x => { o with delcacheTtl := x }
  | .branchcacheTtl x => { o with branchcacheTtl := x }
  | .deletionDirname s => { o with deletionDirname := s }

/-- The option block after the command line's flags, left to right. -/
def parseFlags (flags : List Flag) : Options :=
  flags.foldl Flag.set defaultOptions

/-- Method `getLogLevel`: the parsed level, or `InfoLevel` on a parse error. -/
def getLogLevel (lib : LogLib) (o : Options) : Level :=
  match lib.parseLevel (lib.toLower o.logLevel) with
  | .error _ => .InfoLevel
  | .ok logLevel => logLevel

/-! ## The values `Run` builds -/

/-- The options `fs.GitFSOptions` handed to the tree filesystem. -/
structure GitFSOptions where
  Lazy : Bool
  Disk : Bool
  TempDir : String
  deriving DecidableEq, Repr

/-- The options `unionfs.UnionFsOptions`; durations in nanoseconds. -/
structure UnionFsOptions where
  DeletionCacheTTL : Option Int
  BranchCacheTTL : Option Int
  DeletionDirName : String
  deriving DecidableEq, Repr

/-- The two kinds of `pathfs.FileSystem` that `Run` puts in `fses`: the
loopback filesystem over a directory, and the root `fs.NewTreeFSRoot`
answers for a git directory and a revision. -/
inductive FileSystem
  | loopback (root : String)
  | tree (gitDir revision : String) (opts : GitFSOptions)
  deriving DecidableEq, Repr

/-- The union filesystem `unionfs.NewUnionFs` answers for its arguments. -/
structure UnionFs where
  fses : List FileSystem
  options : UnionFsOptions
  deriving DecidableEq, Repr

/-- The node filesystem `pathfs.NewPathNodeFs` answers for its arguments. -/
structure PathNodeFs where
  ufs : UnionFs
  ClientInodes : Bool
  deriving DecidableEq, Repr

/-- The owner `fuse.Owner`. -/
structure Owner where
  Uid : Nat
  Gid : Nat
  deriving DecidableEq, Repr

/-- The mount options `nodefs.Options`; durations in nanoseconds. -/
structure MountOptions where
  EntryTimeout : Option Int
  AttrTimeout : Option Int
  NegativeTimeout : Option Int
  PortableInodes : Bool
  Owner : Owner
  Debug : Bool
  deriving DecidableEq, Repr

/-- The signals `Run` names. -/
inductive Signal
  | SIGHUP | SIGINT | SIGPIPE | SIGTERM
  deriving DecidableEq, Repr

/-- The signal handed to `signal.Ignore`. -/
def ignoredSignals : List Signal := [.SIGPIPE]

/-- The signals handed to `signal.Notify`. -/
def notifiedSignals : List Signal := [.SIGTERM, .SIGINT, .SIGHUP]

/-- Capacity of `signalChan`. -/
def signalChanCap : Nat := 10

/-- What `Run` is given from outside: the program name `os.Args[0]`, the user
and group ids, and for each fallible call the error it answers, if any. -/
structure Env where
  progName : String
  uid : Nat
  gid : Nat
  newTreeFSRoot : String → String → GitFSOptions → Option String
  mkdir : String → Nat → Option String
  newUnionFs : List FileSystem → UnionFsOptions → Option String
  mountRoot : String → PathNodeFs → MountOptions → Option String

/-- The actions of `Run`, in the order of its statements. `fatal` is a
`log.Fatalf` / `log.Fatal`: the message is logged and the process exits with
status 1. `checkAndUnmount` is the call `doCheckAndUnmount(mp)`, whose body is
in another file of the package; it is taken to return. -/
inductive Action
  | setLevel (l : Level)
  | fatal (msg : String)
  | checkAndUnmount (mp : String)
  | newTreeFSRoot (gitDir revision : String) (opts : GitFSOptions)
  | mkdir (path : String) (perm : Nat)
  | info (msg : String)
  | newUnionFs (fses : List FileSystem) (options : UnionFsOptions)
  | signalIgnore (sigs : List Signal)
  | signalNotify (capacity : Nat) (sigs : List Signal)
  | goHandler (mp : String)
  | mountRoot (mp : String) (nodeFs : PathNodeFs) (mOpts : MountOptions)
  | serve
  deriving DecidableEq, Repr

/-- The literal `opts` of `Run`. -/
def opts (o : Options) : GitFSOptions :=
  { Lazy := o.lazy, Disk := o.disk, TempDir := o.tempDir }

/-- The literal `ufsOptions` of `Run`. -/
def ufsOptions (o : Options) : UnionFsOptions :=
  { DeletionCacheTTL := toDuration o.delcacheTtl
    BranchCacheTTL := toDuration o.branchcacheTtl
    DeletionDirName := o.deletionDirname }

/-- The path `upper` of `Run`: `fmt.Sprintf("%s/upper", cmd.o.gitDir)`. -/
def upper (o : Options) : String := o.gitDir ++ "/upper"

/-- The slice `fses` of `Run`: empty, then the loopback filesystem over
`upper` appended, then `root` appended. -/
def fses (o : Options) (root : FileSystem) : List FileSystem :=
  (([] : List FileSystem) ++ [FileSystem.loopback (upper o)]) ++ [root]

/-- The literal `mOpts` of `Run`; the ids are converted to uint32. -/
def mOpts (env : Env) (o : Options) : MountOptions :=
  { EntryTimeout := toDuration o.entryTtl
    AttrTimeout := toDuration o.entryTtl
    NegativeTimeout := toDuration o.negativeTtl
    PortableInodes := o.portable
    Owner := { Uid := env.uid % 2 ^ 32, Gid := env.gid % 2 ^ 32 }
    Debug := o.debug }

/-- Method `Run`, from the construction of the union filesystem on: the part
after `NewTreeFSRoot` has answered `root`. -/
def runMount (env : Env) (o : Options) (mp : String) (root : FileSystem) : List Action :=
  .mkdir (upper o) 0o755 :: .info ("use upper " ++ upper o) ::
  .newUnionFs (fses o root) (ufsOptions o) ::
  match env.newUnionFs (fses o root) (ufsOptions o) with
  | some err => [.fatal ("NewUnionFs: " ++ err)]
  | none =>
    let nodeFs : PathNodeFs := { ufs := ⟨fses o root, ufsOptions o⟩, ClientInodes := true }
    .signalIgnore ignoredSignals :: .signalNotify signalChanCap notifiedSignals ::
    .goHandler mp ::
    .mountRoot mp nodeFs (mOpts env o) ::
    match env.mountRoot mp nodeFs (mOpts env o) with
    | some err => [.fatal ("Mount fail:" ++ err)]
    | none => [.info ("Mount on " ++ mp), .serve]

/-- Method `Run`: the actions performed for an option block and an argument
list. The first branch is `len(args) >= 2`, with `mp = args[0]` and
`revision = args[1]`; the second is `len(args) < 2`. -/
def Run (lib : LogLib) (env : Env) (o : Options) (args : List String) : List Action :=
  .setLevel (getLogLevel lib o) ::
  match args with
  | mp :: revision :: _ =>
    .checkAndUnmount mp :: .newTreeFSRoot o.gitDir revision (opts o) ::
    match env.newTreeFSRoot o.gitDir revision (opts o) with
    | some err => [.fatal ("NewTreeFSRoot: " ++ err)]
    | none => runMount env o mp (.tree o.gitDir revision (opts o))
  | _ => [.fatal ("usage: " ++ env.progName ++ " MOUNT")]

/-- An environment in which every call succeeds. -/
def okEnv : Env :=
  { progName := "gitfs", uid := 1000, gid := 1000
    newTreeFSRoot := fun _ _ _ => none
    mkdir := fun _ _ => none
    newUnionFs := fun _ _ => none
    mountRoot := fun _ _ _ => none }

/-! ## The signal handler

The goroutine `Run` starts before mounting loops forever: it takes a signal
from `signalChan`, starts a goroutine calling `doUmount(mp, true)` and a
goroutine that sleeps three seconds and then calls `os.Exit(1)`. A goroutine
is taken to start running at its `go` statement, and a sleeping goroutine to
run as soon as the clock reaches its wake-up time. The body of `doUmount` is
in another file of the package: an attempt may return at any later event, or
never. -/

/-- A started call `doUmount(mp, force)`. -/
structure Umount where
  mp : String
  force : Bool
  deriving DecidableEq, Repr

/-- A goroutine sleeping until `wake` (nanoseconds), then exiting the process
with `status`. -/
structure Timer where
  wake : Nat
  status : Nat
  deriving DecidableEq, Repr

/-- The process once the handler goroutine runs: the mount point, the clock,
the content of `signalChan`, the signals taken from it so far, the unmount
attempts started (and which of them have returned), the sleeping exit
goroutines, and the exit status once the process has ended. -/
structure Proc where
  mp : String
  now : Nat
  chan : List Signal
  received : List Signal
  umounts : List Umount
  finished : List Nat
  timers : List Timer
  exited : Option Nat
  deriving DecidableEq, Repr

/-- What can happen to the process: a signal is delivered to it, the handler
loop runs one iteration, the unmount attempt number `i` returns, the clock
advances by `d` nanoseconds, or the main goroutine ends the process
(status 0 when `Serve` and `Run` return, 1 on `log.Fatal`). -/
inductive Event
  | deliver (sig : Signal)
  | receive
  | umountReturns (i : Nat)
  | advance (d : Nat)
  | mainExits (status : Nat)
  deriving DecidableEq, Repr

/-- The process right after the `go` statement of the handler, at time `t0`. -/
def start (mp : String) (t0 : Nat) : Proc :=
  { mp := mp, now := t0, chan := [], received := [], umounts := [], finished := []
    timers := [], exited := none }

/-- Delivery of a signal under `signal.Ignore(SIGPIPE)` and
`signal.Notify(signalChan, SIGTERM, SIGINT, SIGHUP)`: an ignored signal is
discarded, a notified one is sent to the channel without blocking (and lost
when the channel is full). -/
def deliver (s : Proc) (sig : Signal) : Proc :=
  if sig ∈ ignoredSignals then s
  else if sig ∈ notifiedSignals then
    if s.chan.length < signalChanCap then { s with chan := s.chan ++ [sig] } else s
  else s

/-- One iteration of the handler loop: `<-signalChan` (blocking while the
channel is empty), then the two `go` statements. -/
def handle (s : Proc) : Proc :=
  match s.chan with
  | [] => s
  | sig :: rest =>
    { s with
      chan := rest
      received := s.received ++ [sig]
      umounts := s.umounts ++ [{ mp := s.mp, force := true }]
      timers := s.timers ++ [{ wake := s.now + 3 * Second, status := 1 }] }

/-- The clock advances by `d`; a sleeping goroutine whose wake-up time has
come exits the process. -/
def advance (s : Proc) (d : Nat) : Proc :=
  match s.timers.find? (fun t => t.wake ≤ s.now + d) with
  | some t => { s with now := s.now + d, exited := some t.status }
  | none => { s with now := s.now + d }

/-- One event. After the process has ended only the clock moves. -/
def step (s : Proc) (e : Event) : Proc :=
  if s.exited.isSome then
    match e with
    | .advance d => { s with now := s.now + d }
    | _ => s
  else
    match e with
    | .deliver sig => deliver s sig
    | .receive => handle s
    | .umountReturns i =>
      if i < s.umounts.length ∧ i ∉ s.finished then { s with finished := s.finished ++ [i] } else s
    | .advance d => advance s d
    | .mainExits status => { s with exited := some status }

/-- A sequence of events, in order. -/
def run (s : Proc) (evs : List Event) : Proc := evs.foldl step s

/-! ## Vocabulary of the properties -/

/-- The names `levelOfName` accepts, each with its level. -/
def levelTable : List (String × Level) :=
  [("panic", .PanicLevel), ("fatal", .FatalLevel), ("error", .ErrorLevel),
   ("warn", .WarnLevel), ("warning", .WarnLevel), ("info", .InfoLevel),
   ("debug", .DebugLevel), ("trace", .TraceLevel)]

/-- Exactly one of the two materialization switches is on. -/
def exactlyOneStrategy (g : GitFSOptions) : Prop :=
  (g.Lazy = true ∧ g.Disk = false) ∨ (g.Lazy = false ∧ g.Disk = true)

instance (g : GitFSOptions) : Decidable (exactlyOneStrategy g) := by
  unfold exactlyOneStrategy; infer_instance

/-- The values of the text options of an option block. -/
def textOptionValues (o : Options) : List String :=
  [o.logLevel, o.gitDir, o.tempDir, o.deletionDirname]

/-- What holds of the process whatever happens: its mount point is `mp`, every
signal taken from the channel started one unmount attempt and one exit
goroutine, every attempt is `doUmount(mp, true)`, only notified signals are
in the channel or were taken from it, every exit goroutine exits with
status 1, and only started attempts have returned. -/
def HandlerInv (mp : String) (s : Proc) : Prop :=
  s.mp = mp ∧
  s.umounts.length = s.received.length ∧
  s.timers.length = s.received.length ∧
  (∀ u ∈ s.umounts, u = ⟨mp, true⟩) ∧
  (∀ sig ∈ s.chan, sig ∈ notifiedSignals) ∧
  (∀ sig ∈ s.received, sig ∈ notifiedSignals) ∧
  (∀ t ∈ s.timers, t.status = 1) ∧
  (∀ i ∈ s.finished, i < s.umounts.length)

/-! ## Properties of `getLogLevel` -/

theorem ofNat_toNat_of_valid (n : Nat) (hv : n.isValidChar) : (Char.ofNat n).toNat = n := by
  unfold Char.ofNat
  rw [dif_pos hv]
  rfl

theorem unicodeToLower_ascii (tbl : Char → Char) (c : Char) (h : c.toNat ≤ 0x7F) :
    (unicodeToLower tbl c).toNat ≤ 0x7F ∧
    unicodeToLower tbl (unicodeToLower tbl c) = unicodeToLower tbl c := by
  unfold unicodeToLower
  rw [if_pos h]
  by_cases hu : 65 ≤ c.toNat ∧ c.toNat ≤ 90
  · rw [if_pos hu]
    have h2 : (Char.ofNat (c.toNat + 32)).toNat = c.toNat + 32 :=
      ofNat_toNat_of_valid _ (by left; omega)
    have h3 : (Char.ofNat (c.toNat + 32)).toNat ≤ 0x7F := by rw [h2]; omega
    refine ⟨h3, ?_⟩
    rw [if_pos h3, if_neg (by rw [h2]; omega)]
  · rw [if_neg hu]
    exact ⟨h, by rw [if_pos h, if_neg hu]⟩

theorem unicodeToLower_recase (tbl : Char → Char) (c d : Char)
    (h : c.toLower = d.toLower) : unicodeToLower tbl c = unicodeToLower tbl d := by
  have key : ∀ x : Char, (x.toNat ≤ 0x7F → x.toLower.toNat ≤ 0x7F) ∧
      (¬ x.toNat ≤ 0x7F → x.toLower = x) := by
    intro x
    unfold Char.toLower
    simp only [ge_iff_le]
    constructor
    · intro hx
      by_cases hu : 65 ≤ x.toNat ∧ x.toNat ≤ 90
      · rw [if_pos hu, ofNat_toNat_of_valid _ (by left; omega)]; omega
      · rw [if_neg hu]; exact hx
    · intro hx
      rw [if_neg (by omega)]
  have low : ∀ x : Char, x.toNat ≤ 0x7F → unicodeToLower tbl x = x.toLower := by
    intro x hx
    unfold unicodeToLower Char.toLower
    simp only [ge_iff_le]
    rw [if_pos hx]
  by_cases hc : c.toNat ≤ 0x7F <;> by_cases hd : d.toNat ≤ 0x7F
  · rw [low c hc, low d hd, h]
  · have h1 := (key c).1 hc
    rw [h, (key d).2 hd] at h1
    exact absurd h1 hd
  · have h1 := (key d).1 hd
    rw [← h, (key c).2 hc] at h1
    exact absurd h1 hc
  · rw [(key c).2 hc, (key d).2 hd] at h
    rw [h]

theorem ToLower_recase (tbl : Char → Char) (s t : String)
    (h : s.data.map Char.toLower = t.data.map Char.toLower) : ToLower tbl s = ToLower tbl t := by
  unfold ToLower
  congr 1
  obtain ⟨a⟩ := s
  obtain ⟨b⟩ := t
  simp only at h ⊢
  induction a generalizing b with
  | nil =>
    cases b with
    | nil => rfl
    | cons y ys => simp at h
  | cons x xs ih =>
    cases b with
    | nil => simp at h
    | cons y ys =>
      simp only [List.map_cons, List.cons.injEq] at h ⊢
      exact ⟨unicodeToLower_recase tbl x y h.1, ih ys h.2⟩

theorem ToLower_twice (tbl : Char → Char) (s : String)
    (h : ∀ c ∈ s.data, unicodeToLower tbl (unicodeToLower tbl c) = unicodeToLower tbl c) :
    ToLower tbl (ToLower tbl s) = ToLower tbl s := by
  unfold ToLower
  congr 1
  simp only [List.map_map]
  exact List.map_congr_left (fun c hc => h c hc)

theorem levelOfName_of_mem (n : String) (l : Level) (hn : (n, l) ∈ levelTable) :
    levelOfName n = some l := by
  simp only [levelTable, List.mem_cons, Prod.mk.injEq, List.mem_singleton, List.not_mem_nil,
    or_false] at hn
  rcases hn with h | h | h | h | h | h | h | h <;> (obtain ⟨rfl, rfl⟩ := h; rfl)

theorem ToLower_name (tbl : Char → Char) (n : String) (l : Level)
    (hn : (n, l) ∈ levelTable) : ToLower tbl n = n := by
  simp only [levelTable, List.mem_cons, Prod.mk.injEq, List.mem_singleton, List.not_mem_nil,
    or_false] at hn
  rcases hn with h | h | h | h | h | h | h | h <;> (obtain ⟨rfl, rfl⟩ := h; rfl)

theorem levelOfName_none (s : String) (hs : ∀ p ∈ levelTable, s ≠ p.1) :
    levelOfName s = none := by
  have h := fun n l hn => hs (n, l) hn
  simp only [levelTable, List.mem_cons, Prod.mk.injEq, List.mem_singleton, List.not_mem_nil,
    or_false] at h
  unfold levelOfName
  have h1 := h "panic" .PanicLevel (by simp)
  have h2 := h "fatal" .FatalLevel (by simp)
  have h3 := h "error" .ErrorLevel (by simp)
  have h4 := h "warn" .WarnLevel (by simp)
  have h5 := h "warning" .WarnLevel (by simp)
  have h6 := h "info" .InfoLevel (by simp)
  have h7 := h "debug" .DebugLevel (by simp)
  have h8 := h "trace" .TraceLevel (by simp)
  simp [h1, h2, h3, h4, h5, h6, h7, h8]

theorem getLogLevel_go (tbl : Char → Char) (o : Options) :
    getLogLevel (goLogLib tbl) o =
      match levelOfName (ToLower tbl (ToLower tbl o.logLevel)) with
      | some l => l
      | none => .InfoLevel := by
  simp only [getLogLevel, goLogLib, ParseLevel]
  cases levelOfName (ToLower tbl (ToLower tbl o.logLevel)) <;> rfl

/-- C9: `getLogLevel` answers a level for every option block. When the
library parses the lower-cased text it is that level, on a parse error it is
`InfoLevel`, and two texts with the same lower-casing get the same level.
With `strings.ToLower` and `log.ParseLevel` as the libraries define them, over
every case table: a text whose lower-casing is one of the eight level names
gets that name's level; so does a text whose lower-casing the library
lower-cases to a level name; every other text gets `InfoLevel`, the empty text
included; and two texts that differ only in the case of ASCII letters get the
same level. -/
theorem getLogLevel_total_case_insensitive (lib : LogLib) (tbl : Char → Char) (o : Options) :
    (∀ l, lib.parseLevel (lib.toLower o.logLevel) = .ok l → getLogLevel lib o = l) ∧
    (∀ e, lib.parseLevel (lib.toLower o.logLevel) = .error e →
      getLogLevel lib o = .InfoLevel) ∧
    (∀ o' : Options, lib.toLower o'.logLevel = lib.toLower o.logLevel →
      getLogLevel lib o' = getLogLevel lib o) ∧
    (∀ n l, (n, l) ∈ levelTable → ToLower tbl o.logLevel = n →
      getLogLevel (goLogLib tbl) o = l) ∧
    (∀ n l, (n, l) ∈ levelTable → ToLower tbl (ToLower tbl o.logLevel) = n →
      getLogLevel (goLogLib tbl) o = l) ∧
    ((∀ p ∈ levelTable, ToLower tbl (ToLower tbl o.logLevel) ≠ p.1) →
      getLogLevel (goLogLib tbl) o = .InfoLevel) ∧
    ((∀ c ∈ o.logLevel.data,
        unicodeToLower tbl (unicodeToLower tbl c) = unicodeToLower tbl c) →
      (∀ p ∈ levelTable, ToLower tbl o.logLevel ≠ p.1) →
      getLogLevel (goLogLib tbl) o = .InfoLevel) ∧
    ((∀ c ∈ o.logLevel.data, c.toNat ≤ 0x7F) →
      (∀ p ∈ levelTable, ToLower tbl o.logLevel ≠ p.1) →
      getLogLevel (goLogLib tbl) o = .InfoLevel) ∧
    getLogLevel (goLogLib tbl) { o with logLevel := "" } = .InfoLevel ∧
    (∀ o' : Options, o'.logLevel.data.map Char.toLower = o.logLevel.data.map Char.toLower →
      getLogLevel (goLogLib tbl) o' = getLogLevel (goLogLib tbl) o) := by
  have h5 : ∀ n l, (n, l) ∈ levelTable → ToLower tbl (ToLower tbl o.logLevel) = n →
      getLogLevel (goLogLib tbl) o = l := by
    intro n l hn hs
    rw [getLogLevel_go, hs, levelOfName_of_mem n l hn]
  have h6 : (∀ p ∈ levelTable, ToLower tbl (ToLower tbl o.logLevel) ≠ p.1) →
      getLogLevel (goLogLib tbl) o = .InfoLevel := by
    intro hs
    rw [getLogLevel_go, levelOfName_none _ hs]
  have h7 : (∀ c ∈ o.logLevel.data,
        unicodeToLower tbl (unicodeToLower tbl c) = unicodeToLower tbl c) →
      (∀ p ∈ levelTable, ToLower tbl o.logLevel ≠ p.1) →
      getLogLevel (goLogLib tbl) o = .InfoLevel := by
    intro hc hs
    apply h6
    rw [ToLower_twice tbl _ hc]
    exact hs
  refine ⟨?_, ?_, ?_, ?_, h5, h6, h7, ?_, rfl, ?_⟩
  · intro l h; simp [getLogLevel, h]
  · intro e h; simp [getLogLevel, h]
  · intro o' h; simp [getLogLevel, h]
  · intro n l hn hs
    apply h5 n l hn
    rw [hs, ToLower_name tbl n l hn]
  · intro hc
    exact h7 (fun c hm => (unicodeToLower_ascii tbl c (hc c hm)).2)
  · intro o' h
    rw [getLogLevel_go, getLogLevel_go, ToLower_recase tbl _ _ h]

/-- C9 at the text `PANİC`, written with U+0130, whose lower-casing is the
name `panic`, and at the texts `DeBuG` and `debug`. -/
theorem getLogLevel_total_case_insensitive_witness :
    getLogLevel (goLogLib sampleTable) { defaultOptions with logLevel := "PANİC" }
      = .PanicLevel ∧
    getLogLevel (goLogLib sampleTable) { defaultOptions with logLevel := "DeBuG" }
      = getLogLevel (goLogLib sampleTable) { defaultOptions with logLevel := "debug" } :=
  ⟨(getLogLevel_total_case_insensitive stdLogLib sampleTable
      { defaultOptions with logLevel := "PANİC" }).2.2.2.1 "panic" .PanicLevel
      (by decide) (by decide),
   (getLogLevel_total_case_insensitive stdLogLib sampleTable
      { defaultOptions with logLevel := "debug" }).2.2.2.2.2.2.2.2.2
      { defaultOptions with logLevel := "DeBuG" } (by decide)⟩

/-! ## Properties of `Run`: arguments and steps -/

theorem mem_Run_goHandler (lib : LogLib) (env : Env) (o : Options) (mp revision : String)
    (rest : List String) (m : String)
    (h : Action.goHandler m ∈ Run lib env o (mp :: revision :: rest)) : m = mp := by
  simp only [Run, runMount] at h
  split at h
  · simp at h
  · split at h
    · simp at h
    · split at h <;> simpa using h

/-- C7: with fewer than two arguments `Run` sets the log level and ends with
the usage error, and does nothing else; with two or more it takes the first
as mount point and the second as revision (the stale-mount check and
`NewTreeFSRoot` receive them) and the remaining arguments change nothing. -/
theorem Run_arguments (lib : LogLib) (env : Env) (o : Options) (args : List String) :
    (args.length < 2 →
      Run lib env o args =
        [.setLevel (getLogLevel lib o), .fatal ("usage: " ++ env.progName ++ " MOUNT")]) ∧
    (∀ mp revision rest, args = mp :: revision :: rest →
      Run lib env o args = Run lib env o [mp, revision] ∧
      (Run lib env o args).take 3 =
        [.setLevel (getLogLevel lib o), .checkAndUnmount mp,
         .newTreeFSRoot o.gitDir revision (opts o)] ∧
      (∀ m, Action.checkAndUnmount m ∈ Run lib env o args → m = mp) ∧
      (∀ g r p, Action.newTreeFSRoot g r p ∈ Run lib env o args → r = revision) ∧
      (∀ m, Action.goHandler m ∈ Run lib env o args → m = mp) ∧
      (∀ m n q, Action.mountRoot m n q ∈ Run lib env o args → m = mp)) := by
  constructor
  · intro h
    match args, h with
    | [], _ => rfl
    | [_], _ => rfl
    | _ :: _ :: _, h => exact absurd h (by simp)
  · rintro mp revision rest rfl
    refine ⟨rfl, rfl, ?_, ?_, ?_, ?_⟩
    · intro m hm
      simp only [Run, runMount] at hm
      split at hm
      · simpa using hm
      · split at hm
        · simpa using hm
        · split at hm <;> simpa using hm
    · intro g r p hm
      simp only [Run, runMount] at hm
      split at hm
      · simp at hm; exact hm.2.1
      · split at hm
        · simp at hm; exact hm.2.1
        · split at hm <;> (simp at hm; exact hm.2.1)
    · intro m hm
      exact mem_Run_goHandler lib env o mp revision rest m hm
    · intro m n q hm
      simp only [Run, runMount] at hm
      split at hm
      · simp at hm
      · split at hm
        · simp at hm
        · split at hm <;> (simp at hm; exact hm.1)

/-- C7 at the one-element argument list and at a three-element one. -/
theorem Run_arguments_witness :
    Run stdLogLib okEnv defaultOptions ["/mnt"] =
      [.setLevel .InfoLevel, .fatal "usage: gitfs MOUNT"] ∧
    Run stdLogLib okEnv defaultOptions ["/mnt", "HEAD", "extra"] =
      Run stdLogLib okEnv defaultOptions ["/mnt", "HEAD"] :=
  ⟨(Run_arguments stdLogLib okEnv defaultOptions ["/mnt"]).1 (by decide),
   ((Run_arguments stdLogLib okEnv defaultOptions ["/mnt", "HEAD", "extra"]).2
      "/mnt" "HEAD" ["extra"] rfl).1⟩

/-- C8: the steps of `Run` on two or more arguments. `Serve` is reached only
when `NewTreeFSRoot`, `NewUnionFs` and `MountRoot` answered no error; an error
of one of them ends the run with its fatal message as the last action (after
a `NewTreeFSRoot` error no directory is created and nothing is mounted, after
a `NewUnionFs` error no handler is installed and nothing is mounted, after a
`MountRoot` error nothing is served); the answer of `Mkdir` changes nothing. -/
theorem Run_steps (lib : LogLib) (env : Env) (o : Options) (mp revision : String)
    (rest : List String) :
    let root := FileSystem.tree o.gitDir revision (opts o)
    let nodeFs : PathNodeFs := { ufs := ⟨fses o root, ufsOptions o⟩, ClientInodes := true }
    let tr := Run lib env o (mp :: revision :: rest)
    let pre : List Action :=
      [.setLevel (getLogLevel lib o), .checkAndUnmount mp,
       .newTreeFSRoot o.gitDir revision (opts o)]
    let build : List Action :=
      [.mkdir (upper o) 0o755, .info ("use upper " ++ upper o),
       .newUnionFs (fses o root) (ufsOptions o)]
    let mount : List Action :=
      [.signalIgnore ignoredSignals, .signalNotify signalChanCap notifiedSignals,
       .goHandler mp, .mountRoot mp nodeFs (mOpts env o)]
    (Action.serve ∈ tr →
      env.newTreeFSRoot o.gitDir revision (opts o) = none ∧
      env.newUnionFs (fses o root) (ufsOptions o) = none ∧
      env.mountRoot mp nodeFs (mOpts env o) = none) ∧
    (∀ e, env.newTreeFSRoot o.gitDir revision (opts o) = some e →
      tr = pre ++ [.fatal ("NewTreeFSRoot: " ++ e)]) ∧
    (∀ e, env.newTreeFSRoot o.gitDir revision (opts o) = none →
      env.newUnionFs (fses o root) (ufsOptions o) = some e →
      tr = pre ++ build ++ [.fatal ("NewUnionFs: " ++ e)]) ∧
    (∀ e, env.newTreeFSRoot o.gitDir revision (opts o) = none →
      env.newUnionFs (fses o root) (ufsOptions o) = none →
      env.mountRoot mp nodeFs (mOpts env o) = some e →
      tr = pre ++ build ++ mount ++ [.fatal ("Mount fail:" ++ e)]) ∧
    (env.newTreeFSRoot o.gitDir revision (opts o) = none →
      env.newUnionFs (fses o root) (ufsOptions o) = none →
      env.mountRoot mp nodeFs (mOpts env o) = none →
      tr = pre ++ build ++ mount ++ [.info ("Mount on " ++ mp), .serve]) ∧
    (∀ m, Run lib { env with mkdir := m } o (mp :: revision :: rest) = tr) := by
  intro root nodeFs tr pre build mount
  have h1 : ∀ e, env.newTreeFSRoot o.gitDir revision (opts o) = some e →
      tr = pre ++ [.fatal ("NewTreeFSRoot: " ++ e)] := by
    intro e h
    simp only [tr, pre, Run, h]; rfl
  have h2 : ∀ e, env.newTreeFSRoot o.gitDir revision (opts o) = none →
      env.newUnionFs (fses o root) (ufsOptions o) = some e →
      tr = pre ++ build ++ [.fatal ("NewUnionFs: " ++ e)] := by
    intro e h h'
    simp only [tr, pre, build, Run, runMount, h]
    simp only [root] at h'
    rw [h']; rfl
  have h3 : ∀ e, env.newTreeFSRoot o.gitDir revision (opts o) = none →
      env.newUnionFs (fses o root) (ufsOptions o) = none →
      env.mountRoot mp nodeFs (mOpts env o) = some e →
      tr = pre ++ build ++ mount ++ [.fatal ("Mount fail:" ++ e)] := by
    intro e h h' h''
    simp only [tr, pre, build, mount, Run, runMount, h]
    simp only [root, nodeFs] at h' h''
    rw [h', h'']; rfl
  have h4 : env.newTreeFSRoot o.gitDir revision (opts o) = none →
      env.newUnionFs (fses o root) (ufsOptions o) = none →
      env.mountRoot mp nodeFs (mOpts env o) = none →
      tr = pre ++ build ++ mount ++ [.info ("Mount on " ++ mp), .serve] := by
    intro h h' h''
    simp only [tr, pre, build, mount, Run, runMount, h]
    simp only [root, nodeFs] at h' h''
    rw [h', h'']; rfl
  refine ⟨?_, h1, h2, h3, h4, fun _ => rfl⟩
  intro hs
  cases ht : env.newTreeFSRoot o.gitDir revision (opts o) with
  | some e => rw [h1 e ht] at hs; simp [pre] at hs
  | none =>
    cases hu : env.newUnionFs (fses o root) (ufsOptions o) with
    | some e => rw [h2 e ht hu] at hs; simp [pre, build] at hs
    | none =>
      cases hm : env.mountRoot mp nodeFs (mOpts env o) with
      | some e => rw [h3 e ht hu hm] at hs; simp [pre, build, mount] at hs
      | none => exact ⟨rfl, rfl, rfl⟩

/-- C8 at an environment in which `NewTreeFSRoot` answers an error. -/
theorem Run_steps_witness :
    Run stdLogLib { okEnv with newTreeFSRoot := fun _ _ _ => some "no such revision" }
        defaultOptions ["/mnt", "HEAD"] =
      [.setLevel .InfoLevel, .checkAndUnmount "/mnt",
       .newTreeFSRoot "" "HEAD" ⟨true, false, "gitfs"⟩,
       .fatal "NewTreeFSRoot: no such revision"] :=
  (Run_steps stdLogLib { okEnv with newTreeFSRoot := fun _ _ _ => some "no such revision" }
    defaultOptions "/mnt" "HEAD" []).2.1 "no such revision" rfl

/-! ## Properties of `Run`: the values built -/

theorem mem_Run_newUnionFs (lib : LogLib) (env : Env) (o : Options) (args : List String)
    (fs : List FileSystem) (uo : UnionFsOptions)
    (h : Action.newUnionFs fs uo ∈ Run lib env o args) :
    ∃ mp revision rest, args = mp :: revision :: rest ∧
      fs = fses o (.tree o.gitDir revision (opts o)) ∧ uo = ufsOptions o := by
  match args with
  | [] => simp [Run] at h
  | [_] => simp [Run] at h
  | mp :: revision :: rest =>
    refine ⟨mp, revision, rest, rfl, ?_⟩
    simp only [Run, runMount] at h
    split at h
    · simp at h
    · split at h
      · simpa using h
      · split at h <;> simpa using h

theorem mem_Run_mountRoot (lib : LogLib) (env : Env) (o : Options) (args : List String)
    (m : String) (n : PathNodeFs) (q : MountOptions)
    (h : Action.mountRoot m n q ∈ Run lib env o args) :
    ∃ mp revision rest, args = mp :: revision :: rest ∧
      n = { ufs := ⟨fses o (.tree o.gitDir revision (opts o)), ufsOptions o⟩,
            ClientInodes := true } ∧ q = mOpts env o := by
  match args with
  | [] => simp [Run] at h
  | [_] => simp [Run] at h
  | mp :: revision :: rest =>
    refine ⟨mp, revision, rest, rfl, ?_⟩
    simp only [Run, runMount] at h
    split at h
    · simp at h
    · split at h
      · simp at h
      · split at h <;> (simp at h; exact h.2)

/-- C3: whenever `Run` calls `NewUnionFs` (and whenever it mounts), the list
of layers has exactly two elements: the loopback filesystem over the upper
directory at index 0 and the tree filesystem of the revision `args[1]` at
index 1. The call is made whenever `NewTreeFSRoot` succeeded. -/
theorem union_layers (lib : LogLib) (env : Env) (o : Options) (args : List String) :
    (∀ fs uo, Action.newUnionFs fs uo ∈ Run lib env o args →
      ∃ mp revision rest, args = mp :: revision :: rest ∧
        fs = [.loopback (upper o), .tree o.gitDir revision (opts o)] ∧
        fs.length = 2 ∧
        fs.get? 0 = some (.loopback (upper o)) ∧
        fs.get? 1 = some (.tree o.gitDir revision (opts o))) ∧
    (∀ m n q, Action.mountRoot m n q ∈ Run lib env o args →
      ∃ mp revision rest, args = mp :: revision :: rest ∧
        n.ufs.fses = [.loopback (upper o), .tree o.gitDir revision (opts o)]) ∧
    (∀ mp revision rest, args = mp :: revision :: rest →
      env.newTreeFSRoot o.gitDir revision (opts o) = none →
      Action.newUnionFs [.loopback (upper o), .tree o.gitDir revision (opts o)]
        (ufsOptions o) ∈ Run lib env o args) := by
  refine ⟨?_, ?_, ?_⟩
  · intro fs uo h
    obtain ⟨mp, revision, rest, ha, hf, _⟩ := mem_Run_newUnionFs lib env o args fs uo h
    exact ⟨mp, revision, rest, ha, by rw [hf]; rfl, by rw [hf]; rfl, by rw [hf]; rfl,
      by rw [hf]; rfl⟩
  · intro m n q h
    obtain ⟨mp, revision, rest, ha, hn, _⟩ := mem_Run_mountRoot lib env o args m n q h
    exact ⟨mp, revision, rest, ha, by rw [hn]; rfl⟩
  · rintro mp revision rest rfl h
    simp only [Run, runMount, h]
    simp [fses]

/-- C3 at the default options, in an environment where every call succeeds. -/
theorem union_layers_witness :
    Action.newUnionFs [.loopback "/upper", .tree "" "HEAD" ⟨true, false, "gitfs"⟩]
      (ufsOptions defaultOptions) ∈ Run stdLogLib okEnv defaultOptions ["/mnt", "HEAD"] :=
  (union_layers stdLogLib okEnv defaultOptions ["/mnt", "HEAD"]).2.2 "/mnt" "HEAD" [] rfl rfl

/-- C4, as stated, fails: with only `--disk` given both switches are on, and
with only `--lazy=false` given neither is. -/
theorem strategy_not_exclusive :
    ¬ exactlyOneStrategy (opts (parseFlags [.disk true])) ∧
    (opts (parseFlags [.disk true])).Lazy = true ∧
    (opts (parseFlags [.disk true])).Disk = true ∧
    ¬ exactlyOneStrategy (opts (parseFlags [.lazy false])) ∧
    Action.newTreeFSRoot "" "HEAD" ⟨true, true, "gitfs"⟩ ∈
      Run stdLogLib okEnv (parseFlags [.disk true]) ["/mnt", "HEAD"] := by
  decide

/-- C4, amended: `Lazy` is the value of `--lazy` and `Disk` the value of
`--disk`, copied independently, so every combination of the two reaches the
tree filesystem; exactly one is on precisely when the two flag values differ,
which is the case when no flag is given (`Lazy` alone). -/
theorem strategy_follows_flags (flags : List Flag) (a b : Bool) :
    (opts (parseFlags flags)).Lazy = (parseFlags flags).lazy ∧
    (opts (parseFlags flags)).Disk = (parseFlags flags).disk ∧
    (exactlyOneStrategy (opts (parseFlags flags)) ↔
      (parseFlags flags).lazy ≠ (parseFlags flags).disk) ∧
    (opts (parseFlags (flags ++ [.lazy a, .disk b]))).Lazy = a ∧
    (opts (parseFlags (flags ++ [.lazy a, .disk b]))).Disk = b ∧
    opts (parseFlags []) = ⟨true, false, "gitfs"⟩ ∧
    exactlyOneStrategy (opts (parseFlags [])) := by
  refine ⟨rfl, rfl, ?_, ?_, ?_, rfl, by decide⟩
  · simp only [exactlyOneStrategy, opts]
    cases (parseFlags flags).lazy <;> cases (parseFlags flags).disk <;> simp
  · simp [parseFlags, List.foldl_append, Flag.set, opts]
  · simp [parseFlags, List.foldl_append, Flag.set, opts]

theorem append_upper_ne (g : String) : g ++ "/upper" ≠ "/mnt/up" := by
  intro h
  have h' := congrArg (fun s : String => s.data.getLast?) h
  simp [String.data_append] at h'

/-- C6, as stated, fails: the option block has no upper-layer path. With
`--git-dir /repo` the writable layer is rooted at `/repo/upper`, which is the
value of none of the options, and no command line roots it at `/mnt/up`. -/
theorem upper_not_an_option :
    upper (parseFlags [.gitDir "/repo"]) = "/repo/upper" ∧
    upper (parseFlags [.gitDir "/repo"]) ∉ textOptionValues (parseFlags [.gitDir "/repo"]) ∧
    ¬ ∃ flags, upper (parseFlags flags) = "/mnt/up" := by
  refine ⟨by decide, by decide, ?_⟩
  rintro ⟨flags, h⟩
  exact append_upper_ne _ h

/-- C6, amended: the directory the writable layer is rooted at is the git
directory followed by `/upper`. It depends on no other option, it is the
directory `Run` creates, and it is the root of the loopback filesystem at the
head of the layers handed to `NewUnionFs`. -/
theorem upper_from_gitDir (lib : LogLib) (env : Env) (o : Options) (args : List String) :
    upper o = o.gitDir ++ "/upper" ∧
    (∀ o' : Options, o'.gitDir = o.gitDir → upper o' = upper o) ∧
    (∀ path perm, Action.mkdir path perm ∈ Run lib env o args →
      path = o.gitDir ++ "/upper") ∧
    (∀ fs uo, Action.newUnionFs fs uo ∈ Run lib env o args →
      fs.head? = some (.loopback (o.gitDir ++ "/upper"))) := by
  refine ⟨rfl, ?_, ?_, ?_⟩
  · intro o' h
    simp [upper, h]
  · intro path perm h
    match args with
    | [] => simp [Run] at h
    | [_] => simp [Run] at h
    | mp :: revision :: rest =>
      simp only [Run, runMount] at h
      split at h
      · simp at h
      · split at h
        · simp at h; exact h.1
        · split at h <;> (simp at h; exact h.1)
  · intro fs uo h
    obtain ⟨_, _, _, _, hf, _⟩ := mem_Run_newUnionFs lib env o args fs uo h
    rw [hf]; rfl

/-- C6, amended, at two option blocks that differ in every option but the
git directory. -/
theorem upper_from_gitDir_witness :
    upper (parseFlags [.gitDir "/repo", .tempdir "/x", .deletionDirname "D", .disk true]) =
      upper (parseFlags [.gitDir "/repo"]) :=
  (upper_from_gitDir stdLogLib okEnv (parseFlags [.gitDir "/repo"]) []).2.1
    (parseFlags [.gitDir "/repo", .tempdir "/x", .deletionDirname "D", .disk true]) rfl


theorem bitLenAux_le_iff (fuel m k : Nat) (h : m ≤ fuel) :
    bitLenAux fuel m ≤ k ↔ m < 2 ^ k := by
  induction fuel generalizing m k with
  | zero =>
    have : m = 0 := by omega
    subst this; simp [bitLenAux]
  | succ f ih =>
    unfold bitLenAux
    by_cases hm : m = 0
    · subst hm; simp
    · rw [if_neg hm]
      have hf : m / 2 ≤ f := by omega
      cases k with
      | zero => simp; omega
      | succ k =>
        rw [Nat.add_le_add_iff_right, ih (m / 2) k hf, pow_succ]; omega

theorem bitLen_le_iff (m k : Nat) : bitLen m ≤ k ↔ m < 2 ^ k :=
  bitLenAux_le_iff m m k (Nat.le_refl m)

theorem excessBits_le (m j : Nat) (h : m < 2 ^ (53 + j)) : excessBits m ≤ j := by
  have := (bitLen_le_iff m (53 + j)).2 h
  unfold excessBits; omega

theorem roundHalfEven_error (m k : Nat) :
    roundHalfEven m k * 2 ^ k ≤ m + 2 ^ k / 2 ∧ m ≤ roundHalfEven m k * 2 ^ k + 2 ^ k / 2 := by
  have hdm := Nat.div_add_mod m (2 ^ k)
  have hr := Nat.mod_lt m (Nat.two_pow_pos k)
  unfold roundHalfEven
  simp only
  generalize hP : 2 ^ k = P at *
  generalize hq : m / P = q at *
  generalize hrr : m % P = r at *
  have hX : (q + 1) * P = P * q + P := by ring
  split
  · rw [Nat.mul_comm q P]; omega
  · split
    · rw [hX]; omega
    · split
      · rw [Nat.mul_comm q P]; omega
      · rw [hX]; omega

theorem roundHalfEven_exact (m k : Nat) (h : 2 ^ k ∣ m) : roundHalfEven m k * 2 ^ k = m := by
  have hr : m % 2 ^ k = 0 := Nat.mod_eq_zero_of_dvd h
  unfold roundHalfEven
  simp only [hr, Nat.mul_zero, Nat.two_pow_pos, if_true]
  exact Nat.div_mul_cancel h

theorem ofNat_small (n : Nat) (h : n < 2 ^ 53) : F64.ofNat n = ⟨false, n, 0⟩ := by
  have hk : excessBits n = 0 := by
    have := excessBits_le n 0 h; omega
  simp [F64.ofNat, F64.round, hk, roundHalfEven, Nat.mod_one]

theorem toInt64_nonneg (m k : Nat) :
    F64.toInt64 ⟨false, m, (k : Int)⟩ =
      if m * 2 ^ k < 2 ^ 63 then some ((m * 2 ^ k : Nat) : Int) else none := by
  have h0 : (0 : Int) ≤ (k : Int) := Int.ofNat_nonneg k
  simp only [F64.toInt64, h0, if_true, Int.toNat_ofNat, Bool.false_eq_true, if_false]
  by_cases h : m * 2 ^ k < 2 ^ 63
  · have h1 : ((m * 2 ^ k : Nat) : Int) < 2 ^ 63 := by exact_mod_cast h
    have h2 : -(2 ^ 63 : Int) ≤ ((m * 2 ^ k : Nat) : Int) := by
      have : (0 : Int) ≤ ((m * 2 ^ k : Nat) : Int) := Int.ofNat_nonneg _
      omega
    rw [if_pos ⟨h2, h1⟩, if_pos h]
  · have h1 : ¬ ((m * 2 ^ k : Nat) : Int) < 2 ^ 63 := by
      intro hc; exact h (by exact_mod_cast hc)
    rw [if_neg (fun hc => h1 hc.2), if_neg h]

theorem toDuration_ofNat (n : Nat) (h : n < 2 ^ 53) :
    toDuration (F64.ofNat n) =
      if roundHalfEven (n * Second) (excessBits (n * Second)) * 2 ^ excessBits (n * Second)
          < 2 ^ 63
      then some ((roundHalfEven (n * Second) (excessBits (n * Second))
          * 2 ^ excessBits (n * Second) : Nat) : Int)
      else none := by
  have hs : F64.ofNat Second = ⟨false, Second, 0⟩ := by decide
  rw [toDuration, ofNat_small n h, hs]
  simp only [F64.mul, F64.round, bne_self_eq_false, Int.add_zero, Int.zero_add]
  exact toInt64_nonneg _ _

theorem toDuration_exact (n : Nat) (h : n * 5 ^ 9 < 2 ^ 53) :
    toDuration (F64.ofNat n) = some ((n * 10 ^ 9 : Nat) : Int) := by
  have hn : n < 2 ^ 53 := by omega
  have hm : n * Second < 2 ^ (53 + 9) := by
    simp only [Second]; omega
  have hk := excessBits_le _ _ hm
  have hd : 2 ^ excessBits (n * Second) ∣ n * Second := by
    have h1 : 2 ^ excessBits (n * Second) ∣ 2 ^ 9 := Nat.pow_dvd_pow 2 hk
    have h2 : (2 : Nat) ^ 9 ∣ Second := by decide
    exact Dvd.dvd.mul_left (h1.trans h2) n
  rw [toDuration_ofNat n hn, roundHalfEven_exact _ _ hd]
  have : n * Second < 2 ^ 63 := by simp only [Second]; omega
  rw [if_pos this]; rfl

theorem toDuration_near (n : Nat) (h : n * 10 ^ 9 < 2 ^ 63) :
    ∃ d : Int, toDuration (F64.ofNat n) = some d ∧
      d - 512 ≤ ((n * 10 ^ 9 : Nat) : Int) ∧ ((n * 10 ^ 9 : Nat) : Int) ≤ d + 512 := by
  have hn : n < 2 ^ 53 := by omega
  have hm : n * Second < 2 ^ (53 + 10) := by
    simp only [Second]; omega
  have hk := excessBits_le _ _ hm
  have he := roundHalfEven_error (n * Second) (excessBits (n * Second))
  have hp : 2 ^ excessBits (n * Second) ≤ 2 ^ 10 := Nat.pow_le_pow_right (by decide) hk
  have hS : n * Second = n * 10 ^ 9 := rfl
  rw [toDuration_ofNat n hn]
  generalize roundHalfEven (n * Second) (excessBits (n * Second))
    * 2 ^ excessBits (n * Second) = d at *
  generalize 2 ^ excessBits (n * Second) = P at *
  have hlt : d < 2 ^ 63 := by omega
  rw [if_pos hlt]
  refine ⟨(d : Int), rfl, ?_, ?_⟩ <;> omega
theorem parseFlags_snoc (flags : List Flag) (f : Flag) :
    parseFlags (flags ++ [f]) = Flag.set (parseFlags flags) f := by
  simp [parseFlags, List.foldl_append]

/-- C5, as stated, fails: 4611686019 seconds is below 2^63 nanoseconds, yet
the flag value 4611686019 yields 512 nanoseconds more than 4611686019 * 10^9,
and the flag value 9000000001 yields 512 nanoseconds less than
9000000001 * 10^9. -/
theorem ttl_seconds_inexact :
    (4611686019 : Nat) * 10 ^ 9 < 2 ^ 63 ∧
    (ufsOptions (parseFlags [.delcacheCacheTtl (F64.ofNat 4611686019)])).DeletionCacheTTL
      = some (4611686019 * 10 ^ 9 + 512) ∧
    (ufsOptions (parseFlags [.delcacheCacheTtl (F64.ofNat 4611686019)])).DeletionCacheTTL
      ≠ some (4611686019 * 10 ^ 9) ∧
    (9000000001 : Nat) * 10 ^ 9 < 2 ^ 63 ∧
    (mOpts okEnv (parseFlags [.entryTtl (F64.ofNat 9000000001)])).EntryTimeout
      = some (9000000001 * 10 ^ 9 - 512) := by
  decide

/-- C5, amended: each TTL flag is a float64 number of seconds multiplied by
the float64 value of `time.Second`. For every whole number `n` with
`n * 5^9 < 2^53` the flag value `n` yields exactly `n * 10^9` nanoseconds in
the corresponding option; for every whole `n` with `n * 10^9 < 2^63` it yields
a duration within 512 nanoseconds of `n * 10^9`; with no flags the durations
are 5 s, 5 s, 1 s, 1 s and 1 s. -/
theorem ttl_seconds (env : Env) (flags : List Flag) (n : Nat) :
    (n * 5 ^ 9 < 2 ^ 53 →
      (ufsOptions (parseFlags (flags ++ [.delcacheCacheTtl (F64.ofNat n)]))).DeletionCacheTTL
        = some ((n * 10 ^ 9 : Nat) : Int) ∧
      (ufsOptions (parseFlags (flags ++ [.branchcacheTtl (F64.ofNat n)]))).BranchCacheTTL
        = some ((n * 10 ^ 9 : Nat) : Int) ∧
      (mOpts env (parseFlags (flags ++ [.entryTtl (F64.ofNat n)]))).EntryTimeout
        = some ((n * 10 ^ 9 : Nat) : Int) ∧
      (mOpts env (parseFlags (flags ++ [.entryTtl (F64.ofNat n)]))).AttrTimeout
        = some ((n * 10 ^ 9 : Nat) : Int) ∧
      (mOpts env (parseFlags (flags ++ [.negativeTtl (F64.ofNat n)]))).NegativeTimeout
        = some ((n * 10 ^ 9 : Nat) : Int)) ∧
    (n * 10 ^ 9 < 2 ^ 63 →
      ∃ d : Int, d - 512 ≤ ((n * 10 ^ 9 : Nat) : Int) ∧ ((n * 10 ^ 9 : Nat) : Int) ≤ d + 512 ∧
        (ufsOptions (parseFlags (flags ++ [.delcacheCacheTtl (F64.ofNat n)]))).DeletionCacheTTL
          = some d ∧
        (ufsOptions (parseFlags (flags ++ [.branchcacheTtl (F64.ofNat n)]))).BranchCacheTTL
          = some d ∧
        (mOpts env (parseFlags (flags ++ [.entryTtl (F64.ofNat n)]))).EntryTimeout = some d ∧
        (mOpts env (parseFlags (flags ++ [.entryTtl (F64.ofNat n)]))).AttrTimeout = some d ∧
        (mOpts env (parseFlags (flags ++ [.negativeTtl (F64.ofNat n)]))).NegativeTimeout
          = some d) ∧
    (ufsOptions (parseFlags [])).DeletionCacheTTL = some 5000000000 ∧
    (ufsOptions (parseFlags [])).BranchCacheTTL = some 5000000000 ∧
    (mOpts env (parseFlags [])).EntryTimeout = some 1000000000 ∧
    (mOpts env (parseFlags [])).AttrTimeout = some 1000000000 ∧
    (mOpts env (parseFlags [])).NegativeTimeout = some 1000000000 := by
  have h1 : toDuration (F64.ofNat 1) = some 1000000000 := by decide
  refine ⟨?_, ?_, by decide, by decide, h1, h1, h1⟩
  · intro h
    have hd := toDuration_exact n h
    simp only [parseFlags_snoc, Flag.set, ufsOptions, mOpts, hd, and_self]
  · intro h
    obtain ⟨d, hd, h1, h2⟩ := toDuration_near n h
    refine ⟨d, h1, h2, ?_⟩
    simp only [parseFlags_snoc, Flag.set, ufsOptions, mOpts, hd, and_self]

/-- C5, amended, at one hour and at the largest whole number of seconds
below 2^63 nanoseconds. -/
theorem ttl_seconds_witness :
    (ufsOptions (parseFlags [.delcacheCacheTtl (F64.ofNat 3600)])).DeletionCacheTTL
      = some 3600000000000 ∧
    ∃ d : Int, d - 512 ≤ 9223372036000000000 ∧ 9223372036000000000 ≤ d + 512 ∧
      (mOpts okEnv (parseFlags [.negativeTtl (F64.ofNat 9223372036)])).NegativeTimeout
        = some d := by
  have h := ttl_seconds okEnv [] 3600
  have h' := ttl_seconds okEnv [] 9223372036
  refine ⟨(h.1 (by decide)).1, ?_⟩
  obtain ⟨d, h1, h2, _, _, _, _, h3⟩ := h'.2.1 (by decide)
  exact ⟨d, h1, h2, h3⟩

/-! ## Properties of the signal handler -/

theorem run_cons (s : Proc) (e : Event) (es : List Event) :
    run s (e :: es) = run (step s e) es := rfl

theorem run_append (s : Proc) (a b : List Event) : run s (a ++ b) = run (run s a) b := by
  simp [run, List.foldl_append]

theorem run_invariant (P : Proc → Prop) (hstep : ∀ s e, P s → P (step s e))
    (evs : List Event) : ∀ s, P s → P (run s evs) := by
  induction evs with
  | nil => intro s hs; exact hs
  | cons e es ih => intro s hs; exact ih _ (hstep s e hs)

theorem HandlerInv_start (mp : String) (t0 : Nat) : HandlerInv mp (start mp t0) := by
  simp [HandlerInv, start]

theorem HandlerInv_step (mp : String) (s : Proc) (e : Event) (h : HandlerInv mp s) :
    HandlerInv mp (step s e) := by
  obtain ⟨h1, h2, h3, h4, h5, h6, h7, h8⟩ := h
  unfold step
  split
  · cases e <;> exact ⟨h1, h2, h3, h4, h5, h6, h7, h8⟩
  · cases e with
    | deliver sig =>
      simp only [deliver]
      split
      · exact ⟨h1, h2, h3, h4, h5, h6, h7, h8⟩
      · split
        · rename_i hn
          split
          · refine ⟨h1, h2, h3, h4, ?_, h6, h7, h8⟩
            intro x hx
            simp only [List.mem_append, List.mem_singleton] at hx
            rcases hx with hx | hx
            · exact h5 x hx
            · rw [hx]; exact hn
          · exact ⟨h1, h2, h3, h4, h5, h6, h7, h8⟩
        · exact ⟨h1, h2, h3, h4, h5, h6, h7, h8⟩
    | receive =>
      simp only [handle]
      split
      · exact ⟨h1, h2, h3, h4, h5, h6, h7, h8⟩
      · rename_i sig rest hc
        rw [hc] at h5
        refine ⟨h1, ?_, ?_, ?_, ?_, ?_, ?_, ?_⟩
        · simp [h2]
        · simp [h3]
        · intro u hu
          simp only [List.mem_append, List.mem_singleton] at hu
          rcases hu with hu | hu
          · exact h4 u hu
          · rw [hu, h1]
        · intro x hx; exact h5 x (List.mem_cons_of_mem _ hx)
        · intro x hx
          simp only [List.mem_append, List.mem_singleton] at hx
          rcases hx with hx | hx
          · exact h6 x hx
          · rw [hx]; exact h5 sig (List.mem_cons_self _ _)
        · intro t ht
          simp only [List.mem_append, List.mem_singleton] at ht
          rcases ht with ht | ht
          · exact h7 t ht
          · rw [ht]
        · intro i hi
          have := h8 i hi
          simp only [List.length_append, List.length_singleton]
          omega
    | umountReturns i =>
      simp only
      split
      · rename_i hi
        refine ⟨h1, h2, h3, h4, h5, h6, h7, ?_⟩
        intro j hj
        simp only [List.mem_append, List.mem_singleton] at hj
        rcases hj with hj | hj
        · exact h8 j hj
        · rw [hj]; exact hi.1
      · exact ⟨h1, h2, h3, h4, h5, h6, h7, h8⟩
    | advance d =>
      simp only [advance]
      split <;> exact ⟨h1, h2, h3, h4, h5, h6, h7, h8⟩
    | mainExits c => exact ⟨h1, h2, h3, h4, h5, h6, h7, h8⟩

theorem HandlerInv_run (mp : String) (t0 : Nat) (evs : List Event) :
    HandlerInv mp (run (start mp t0) evs) :=
  run_invariant (HandlerInv mp) (fun s e => HandlerInv_step mp s e) evs _
    (HandlerInv_start mp t0)

theorem deliver_all (sigs : List Signal) : ∀ s : Proc, s.exited = none →
    (∀ sig ∈ sigs, sig ∈ notifiedSignals) → s.chan.length + sigs.length ≤ signalChanCap →
    run s (sigs.map .deliver) = { s with chan := s.chan ++ sigs } := by
  induction sigs with
  | nil => intro s _ _ _; simp [run]
  | cons a rest ih =>
    intro s he hn hl
    have ha : a ∈ notifiedSignals := hn a (List.mem_cons_self _ _)
    have hi : a ∉ ignoredSignals := by
      revert ha; cases a <;> decide
    have hlen : s.chan.length < signalChanCap := by
      simp only [List.length_cons] at hl; omega
    have hs : step s (.deliver a) = { s with chan := s.chan ++ [a] } := by
      simp [step, he, deliver, hi, ha, hlen]
    rw [List.map_cons, run_cons, hs,
      ih { s with chan := s.chan ++ [a] } he (fun x hx => hn x (List.mem_cons_of_mem _ hx))]
    · simp
    · simp only [List.length_append, List.length_cons, List.length_nil] at hl ⊢; omega

theorem receive_all (sigs : List Signal) : ∀ (s : Proc) (rest : List Signal), s.exited = none →
    s.chan = sigs ++ rest →
    run s (List.replicate sigs.length .receive) =
      { s with
        chan := rest
        received := s.received ++ sigs
        umounts := s.umounts ++ List.replicate sigs.length ⟨s.mp, true⟩
        timers := s.timers ++ List.replicate sigs.length ⟨s.now + 3 * Second, 1⟩ } := by
  induction sigs with
  | nil =>
    intro s rest _ hc
    obtain ⟨mp, now, chan, received, umounts, finished, timers, exited⟩ := s
    simp only [List.nil_append] at hc
    simp [run, hc]
  | cons a more ih =>
    intro s rest he hc
    have hs : step s .receive =
        { s with
          chan := more ++ rest
          received := s.received ++ [a]
          umounts := s.umounts ++ [⟨s.mp, true⟩]
          timers := s.timers ++ [⟨s.now + 3 * Second, 1⟩] } := by
      simp [step, he, handle, hc]
    rw [List.length_cons, List.replicate_succ, run_cons, hs,
      ih { s with
           chan := more ++ rest
           received := s.received ++ [a]
           umounts := s.umounts ++ [⟨s.mp, true⟩]
           timers := s.timers ++ [⟨s.now + 3 * Second, 1⟩] } rest he rfl]
    simp [List.replicate_succ]

theorem step_exited (s : Proc) (e : Event) (c : Nat) (h : s.exited = some c) :
    (step s e).exited = some c := by
  unfold step
  rw [if_pos (by simp [h])]
  cases e <;> exact h

theorem run_exited (es : List Event) : ∀ (s : Proc) (c : Nat), s.exited = some c →
    (run s es).exited = some c := by
  induction es with
  | nil => intro s c h; exact h
  | cons e es ih => intro s c h; exact ih _ c (step_exited s e c h)

theorem step_exit_status (mp : String) (s : Proc) (e : Event) (c : Nat)
    (hi : HandlerInv mp s) (hn : s.exited = none) (h : (step s e).exited = some c) :
    c = 1 ∨ e = .mainExits c := by
  obtain ⟨_, _, _, _, _, _, h7, _⟩ := hi
  unfold step at h
  rw [if_neg (by simp [hn])] at h
  cases e with
  | deliver sig =>
    simp only [deliver] at h
    split at h
    · rw [hn] at h; cases h
    · split at h
      · split at h <;> (rw [hn] at h; cases h)
      · rw [hn] at h; cases h
  | receive =>
    simp only [handle] at h
    split at h <;> (simp only [hn] at h; cases h)
  | umountReturns i =>
    simp only at h
    split at h <;> (simp only [hn] at h; cases h)
  | advance d =>
    simp only [advance] at h
    split at h
    · rename_i t ht
      simp only [Option.some.injEq] at h
      left
      rw [← h]
      exact h7 t (List.mem_of_find?_eq_some ht)
    · simp only [hn] at h; cases h
  | mainExits c' =>
    simp only [Option.some.injEq] at h
    right; rw [h]

theorem run_exit_status (mp : String) (es : List Event) : ∀ s : Proc, HandlerInv mp s →
    s.exited = none →
    (run s es).exited = none ∨ (run s es).exited = some 1 ∨
      ∃ c, Event.mainExits c ∈ es ∧ (run s es).exited = some c := by
  induction es with
  | nil => intro s _ hn; exact Or.inl hn
  | cons e es ih =>
    intro s hi hn
    rw [run_cons]
    cases hx : (step s e).exited with
    | none =>
      rcases ih _ (HandlerInv_step mp s e hi) hx with h | h | ⟨c, hc, h⟩
      · exact Or.inl h
      · exact Or.inr (Or.inl h)
      · exact Or.inr (Or.inr ⟨c, List.mem_cons_of_mem _ hc, h⟩)
    | some c =>
      have hf := run_exited es _ c hx
      rcases step_exit_status mp s e c hi hn hx with h | h
      · rw [h] at hf; exact Or.inr (Or.inl hf)
      · exact Or.inr (Or.inr ⟨c, by rw [h]; exact List.mem_cons_self _ _, hf⟩)

theorem step_deadline (D : Nat) (s : Proc) (e : Event)
    (ht : (⟨D, 1⟩ : Timer) ∈ s.timers) (hd : s.exited = none → s.now < D) :
    (⟨D, 1⟩ : Timer) ∈ (step s e).timers ∧ ((step s e).exited = none → (step s e).now < D) := by
  unfold step
  split
  · rename_i he
    have hne : s.exited ≠ none := by
      intro h; simp [h] at he
    cases e <;> first
      | exact ⟨ht, fun h => absurd h hne⟩
  · rename_i he
    have hn : s.exited = none := by
      cases hx : s.exited with
      | none => rfl
      | some c => simp [hx] at he
    cases e with
    | deliver sig =>
      simp only [deliver]
      split
      · exact ⟨ht, hd⟩
      · split
        · split
          · exact ⟨ht, hd⟩
          · exact ⟨ht, hd⟩
        · exact ⟨ht, hd⟩
    | receive =>
      simp only [handle]
      split
      · exact ⟨ht, hd⟩
      · exact ⟨List.mem_append_left _ ht, hd⟩
    | umountReturns i =>
      simp only
      split <;> exact ⟨ht, hd⟩
    | advance d =>
      simp only [advance]
      split
      · refine ⟨ht, fun h => ?_⟩
        cases h
      · rename_i hnone
        refine ⟨ht, fun _ => ?_⟩
        have := List.find?_eq_none.1 hnone ⟨D, 1⟩ ht
        simpa using this
    | mainExits c =>
      refine ⟨ht, fun h => ?_⟩
      cases h

theorem run_deadline (D : Nat) (es : List Event) : ∀ s : Proc,
    (⟨D, 1⟩ : Timer) ∈ s.timers → (s.exited = none → s.now < D) →
    ((run s es).exited = none → (run s es).now < D) := by
  induction es with
  | nil => intro s _ hd; exact hd
  | cons e es ih =>
    intro s ht hd
    have := step_deadline D s e ht hd
    exact ih _ this.1 this.2

/-- C1: the handler `Run` starts is the one for the mount point `args[0]`.
Whatever happens to the process, the number of unmount attempts started
equals the number of signals the handler loop has taken from the
channel (and so does the number of exit goroutines), every attempt is
`doUmount(mp, true)` on the mount point, and the signals taken are among
SIGTERM, SIGINT and SIGHUP; SIGPIPE never reaches the channel and its delivery
changes nothing. A burst of at most ten termination signals followed by as
many loop iterations starts exactly one attempt per signal. -/
theorem unmount_once_per_signal (mp : String) (t0 : Nat) (evs : List Event)
    (sigs : List Signal) :
    (∀ lib env o revision rest m,
      Action.goHandler m ∈ Run lib env o (mp :: revision :: rest) → m = mp) ∧
    ((run (start mp t0) evs).umounts.length = (run (start mp t0) evs).received.length ∧
      (run (start mp t0) evs).timers.length = (run (start mp t0) evs).received.length ∧
      (∀ u ∈ (run (start mp t0) evs).umounts, u = ⟨mp, true⟩) ∧
      (∀ sig ∈ (run (start mp t0) evs).received,
        sig = .SIGTERM ∨ sig = .SIGINT ∨ sig = .SIGHUP) ∧
      Signal.SIGPIPE ∉ (run (start mp t0) evs).received ∧
      Signal.SIGPIPE ∉ (run (start mp t0) evs).chan) ∧
    (∀ p : Proc, step p (.deliver .SIGPIPE) = p) ∧
    ((∀ sig ∈ sigs, sig = .SIGTERM ∨ sig = .SIGINT ∨ sig = .SIGHUP) →
      sigs.length ≤ signalChanCap →
      (run (start mp t0)
        (sigs.map .deliver ++ List.replicate sigs.length .receive)).received = sigs ∧
      (run (start mp t0)
        (sigs.map .deliver ++ List.replicate sigs.length .receive)).umounts
          = List.replicate sigs.length ⟨mp, true⟩) := by
  have hmem : ∀ sig : Signal, sig ∈ notifiedSignals ↔
      (sig = .SIGTERM ∨ sig = .SIGINT ∨ sig = .SIGHUP) := by
    intro sig; cases sig <;> decide
  obtain ⟨_, h2, h3, h4, h5, h6, _, _⟩ := HandlerInv_run mp t0 evs
  refine ⟨fun lib env o revision rest m h => mem_Run_goHandler lib env o mp revision rest m h,
    ⟨h2, h3, h4, fun sig h => (hmem sig).1 (h6 sig h), ?_, ?_⟩, ?_, ?_⟩
  · intro h; exact absurd (h6 _ h) (by decide)
  · intro h; exact absurd (h5 _ h) (by decide)
  · intro p
    unfold step
    split
    · rfl
    · rfl
  · intro hs hl
    have hn : ∀ sig ∈ sigs, sig ∈ notifiedSignals := fun sig h => (hmem sig).2 (hs sig h)
    have hd := deliver_all sigs (start mp t0) rfl hn (by simpa [start] using hl)
    rw [run_append, hd]
    rw [receive_all sigs { start mp t0 with chan := (start mp t0).chan ++ sigs } [] rfl
      (by simp [start])]
    simp [start]

/-- C1 at a burst of SIGTERM, SIGINT, SIGHUP. -/
theorem unmount_once_per_signal_witness :
    (run (start "/mnt" 0)
      ([Signal.SIGTERM, .SIGINT, .SIGHUP].map .deliver ++ List.replicate 3 .receive)).umounts
        = [⟨"/mnt", true⟩, ⟨"/mnt", true⟩, ⟨"/mnt", true⟩] :=
  ((unmount_once_per_signal "/mnt" 0 [] [.SIGTERM, .SIGINT, .SIGHUP]).2.2.2
    (by decide) (by decide)).2

/-- C2: whenever the handler loop takes a signal from the channel, the same
iteration starts the unmount attempt and an exit goroutine with status 1 and
wake-up time three seconds later, without any event in between (the attempt
has not returned and the clock has not moved). Whatever happens afterwards,
the attempt returning or not, once the clock has reached that wake-up time
the process has ended: with status 1, unless the main goroutine ended it
before with its own status. -/
theorem exit_timer_armed (mp : String) (t0 : Nat) (evs later : List Event)
    (hrun : (run (start mp t0) evs).exited = none)
    (hsig : (run (start mp t0) evs).chan ≠ []) :
    ((step (run (start mp t0) evs) .receive).timers =
        (run (start mp t0) evs).timers ++
          [⟨(run (start mp t0) evs).now + 3 * 1000000000, 1⟩] ∧
      (step (run (start mp t0) evs) .receive).umounts =
        (run (start mp t0) evs).umounts ++ [⟨mp, true⟩] ∧
      (run (start mp t0) evs).umounts.length ∉
        (step (run (start mp t0) evs) .receive).finished ∧
      (step (run (start mp t0) evs) .receive).now = (run (start mp t0) evs).now ∧
      (step (run (start mp t0) evs) .receive).exited = none) ∧
    ((run (start mp t0) evs).now + 3 * 1000000000 ≤
        (run (step (run (start mp t0) evs) .receive) later).now →
      (run (step (run (start mp t0) evs) .receive) later).exited = some 1 ∨
      ∃ c, Event.mainExits c ∈ later ∧
        (run (step (run (start mp t0) evs) .receive) later).exited = some c) := by
  have hi := HandlerInv_run mp t0 evs
  generalize run (start mp t0) evs = s at *
  obtain ⟨sig, rest, hc⟩ : ∃ sig rest, s.chan = sig :: rest := by
    cases hx : s.chan with
    | nil => exact absurd hx hsig
    | cons a r => exact ⟨a, r, rfl⟩
  have hs : step s .receive =
      { s with
        chan := rest
        received := s.received ++ [sig]
        umounts := s.umounts ++ [⟨s.mp, true⟩]
        timers := s.timers ++ [⟨s.now + 3 * Second, 1⟩] } := by
    simp [step, hrun, handle, hc]
  have hi1 := HandlerInv_step mp s .receive hi
  have hx1 : (step s .receive).exited = none := by rw [hs]; exact hrun
  have ht1 : (⟨s.now + 3 * Second, 1⟩ : Timer) ∈ (step s .receive).timers := by
    rw [hs]; simp
  have hd1 : (step s .receive).exited = none → (step s .receive).now < s.now + 3 * Second := by
    intro _; rw [hs]; show s.now < s.now + 3 * Second; simp [Second]
  refine ⟨⟨by rw [hs]; rfl, by rw [hs]; simp [hi.1], ?_, by rw [hs], hx1⟩, ?_⟩
  · intro hm
    rw [hs] at hm
    have := hi.2.2.2.2.2.2.2 _ hm
    omega
  · intro hnow
    have hdl := run_deadline (s.now + 3 * Second) later (step s .receive) ht1 hd1
    rcases run_exit_status mp later (step s .receive) hi1 hx1 with h | h | h
    · have := hdl h
      simp only [Second] at this hnow
      omega
    · exact Or.inl h
    · exact Or.inr h

/-- C2 at a SIGTERM whose unmount attempt never returns, and at one whose
attempt returns after a second: three seconds after the signal is taken the
process has exited with status 1. -/
theorem exit_timer_armed_witness :
    (run (step (run (start "/mnt" 0) [.deliver .SIGTERM]) .receive)
        [.advance 3000000000]).exited = some 1 ∧
    (run (step (run (start "/mnt" 0) [.advance 7, .deliver .SIGTERM]) .receive)
        [.advance 1000000000, .umountReturns 0, .advance 2000000000]).exited = some 1 := by
  have h1 := (exit_timer_armed "/mnt" 0 [.deliver .SIGTERM] [.advance 3000000000]
    (by decide) (by decide)).2 (by decide)
  have h2 := (exit_timer_armed "/mnt" 0 [.advance 7, .deliver .SIGTERM]
    [.advance 1000000000, .umountReturns 0, .advance 2000000000]
    (by decide) (by decide)).2 (by decide)
  refine ⟨?_, ?_⟩
  · rcases h1 with h | ⟨c, hc, _⟩
    · exact h
    · simp at hc
  · rcases h2 with h | ⟨c, hc, _⟩
    · exact h
    · simp at hc
end Gitfs

